import Mathlib

/-!
Shallow embedding of the separate-chaining hash map of `src/lib.rs`
(`pub struct HashMap<K, V> { buckets: Vec<Vec<(K, V)>>, items: usize }`)
together with proofs of the specification claims.

The Rust `DefaultHasher` pipeline (`key.hash(&mut hasher); hasher.finish()`)
is modelled by an arbitrary deterministic function `hash : K → Nat`; the
`Eq` bound on keys is modelled by `DecidableEq K`.  A Rust panic
(`% 0` or an out-of-range `Vec` index) is modelled by an `Option`-typed
result being `none` wherever a panic is actually possible.
-/

structure HashMap (K V : Type) where
  buckets : List (List (K × V))
  items : Nat
deriving DecidableEq

namespace HashMap

variable {K V : Type} [DecidableEq K]

/-- `HashMap::new()` — no buckets, no items. -/
def new : HashMap K V := ⟨[], 0⟩

/-- `fn empty(&self) -> bool { self.items == 0 }` -/
def empty (m : HashMap K V) : Bool := m.items == 0

/-- `fn get_bucket_idx(&self, key: &K) -> usize`, i.e.
`(hasher.finish() % self.buckets.len() as u64) as usize`.
Returns `none` when `buckets.len() == 0`: in Rust the remainder `% 0`
panics.  (Truncation `as usize` is the identity here because the result
of `x % len` already fits whenever `len ≥ 1`.) -/
def getBucketIdx (hash : K → Nat) (m : HashMap K V) (k : K) : Option Nat :=
  if m.buckets.length = 0 then none
  else some (hash k % m.buckets.length)

/-- The new bucket-array size chosen by `rehash`:
`match self.buckets.len() { 0 => 1, n => n * 2 }`. -/
def newSize : Nat → Nat
  | 0 => 1
  | n => n * 2

/-- `new_buckets[idx].push(x)` on a bucket array `bs` at index `i`. -/
def pushAt (bs : List (List α)) (i : Nat) (x : α) : List (List α) :=
  bs.set i (bs.getD i [] ++ [x])

/-- Indexing `self.buckets[idx]`: total here because every call site
establishes `idx < buckets.len()` (Rust would panic otherwise). -/
def bucketAt (bs : List (List α)) (i : Nat) : List α := bs.getD i []

/-- `fn rehash(&mut self)`: allocate `newSize` empty buckets, drain every
old bucket in order (`flat_map(|bucket| bucket.drain(..))`, i.e. the
flattening of the old bucket list), and push each entry into the new
bucket selected by `hash % size`; finally replace the bucket array.
`items` is untouched. -/
def rehash (hash : K → Nat) (m : HashMap K V) : HashMap K V :=
  let size := newSize m.buckets.length
  ⟨m.buckets.flatten.foldl (fun bs kv => pushAt bs (hash kv.1 % size) kv)
    (List.replicate size []), m.items⟩

/-- The growth check at the top of `insert`:
`if self.empty() || self.items > (3 * self.buckets.len() / 4) { self.rehash(); }`. -/
def growIfNeeded (hash : K → Nat) (m : HashMap K V) : HashMap K V :=
  if m.empty || decide (m.items > 3 * m.buckets.length / 4) then rehash hash m else m

/-- The linear scan of `insert`'s replacement loop: the value of the first
entry of the bucket whose key equals `k`, if any. -/
def findEntry : List (K × V) → K → Option V
  | [], _ => none
  | (k2, v) :: rest, k => if k2 = k then some v else findEntry rest k

/-- The effect of `insert`'s replacement loop on the bucket when a match
exists: `mem::replace(v, value)` overwrites the value of the first entry
whose key equals `k`, leaving the stored key and the rest of the bucket
untouched. -/
def replaceFirst : List (K × V) → K → V → List (K × V)
  | [], _, _ => []
  | (k2, v2) :: rest, k, v =>
      if k2 = k then (k2, v) :: rest else (k2, v2) :: replaceFirst rest k v

/-- `fn insert(&mut self, key: K, value: V) -> Option<V>`.
After `growIfNeeded`, the bucket array is provably never empty
(`growIfNeeded_length_pos` below), so `get_bucket_idx` and the bucket
index cannot panic here and `insert` is total; the modulo below is the
one the source computes.  Note the source returns `None` on BOTH paths:
in the replacement branch the result of `mem::replace` is discarded. -/
def insert (hash : K → Nat) (m : HashMap K V) (k : K) (v : V) :
    Option V × HashMap K V :=
  let m1 := growIfNeeded hash m
  let idx := hash k % m1.buckets.length
  let bucket := bucketAt m1.buckets idx
  match findEntry bucket k with
  | some _ => (none, ⟨m1.buckets.set idx (replaceFirst bucket k v), m1.items⟩)
  | none => (none, ⟨m1.buckets.set idx (bucket ++ [(k, v)]), m1.items + 1⟩)

/-- `Iterator::position` of the bucket scan in `remove`. -/
def position (p : α → Bool) : List α → Option Nat
  | [] => none
  | x :: rest => if p x then some 0 else (position p rest).map (fun i => i + 1)

/-- `Vec::swap_remove(i)`: overwrite index `i` with the last element and
pop the last element.  (Rust panics when `i ≥ len`; every call site below
has `i < len`.) -/
def swapRemove (l : List α) (i : Nat) : List α :=
  match l.getLast? with
  | none => []
  | some b => (l.set i b).dropLast

/-- `fn remove(&mut self, key: K) -> Option<V>`.
The outer `Option` models the panic: `remove` calls `get_bucket_idx`
unconditionally, so on a table with no buckets it divides by zero.
When `position` finds no match, the `?` operator returns `None` with the
map unchanged.  When it finds index `i`, the source decrements `items`,
calls `swap_remove(i)` — and discards the removed value, returning
`None`. -/
def remove (hash : K → Nat) (m : HashMap K V) (k : K) :
    Option (Option V × HashMap K V) :=
  match getBucketIdx hash m k with
  | none => none
  | some idx =>
      let bucket := bucketAt m.buckets idx
      match position (fun kv => kv.1 == k) bucket with
      | none => some (none, m)
      | some i => some (none, ⟨m.buckets.set idx (swapRemove bucket i), m.items - 1⟩)

/-- `fn get(&self, key: K) -> Option<&V>`.
The outer `Option` models the panic possibility: `get` guards with
`self.empty()` (an `items == 0` test), not with a capacity test, so on a
table with `items ≠ 0` but no buckets the bucket-index modulo would
divide by zero.  We model values rather than references. -/
def get (hash : K → Nat) (m : HashMap K V) (k : K) : Option (Option V) :=
  if m.empty then some none
  else
    match getBucketIdx hash m k with
    | none => none
    | some idx => some (findEntry (bucketAt m.buckets idx) k)

/-- The states reachable from `HashMap::new()` through the public
mutating interface (`get` is read-only and does not change the state;
a `remove` that panics produces no successor state). -/
inductive Reachable (hash : K → Nat) : HashMap K V → Prop where
  | init : Reachable hash new
  | ins (m : HashMap K V) (k : K) (v : V) :
      Reachable hash m → Reachable hash (insert hash m k v).2
  | del (m : HashMap K V) (k : K) (r : Option V) (m2 : HashMap K V) :
      Reachable hash m → remove hash m k = some (r, m2) → Reachable hash m2

/-- The structural invariant of the table:
`items` counts the entries, every entry sits in the bucket prescribed by
`hash % capacity`, and no key occurs twice across the whole table. -/
structure WF (hash : K → Nat) (m : HashMap K V) : Prop where
  count : m.items = m.buckets.flatten.length
  placed : ∀ i (h : i < m.buckets.length), ∀ kv ∈ m.buckets[i],
      hash kv.1 % m.buckets.length = i
  nodupKeys : (m.buckets.flatten.map Prod.fst).Nodup

/-- A single operation of a client program (used to quantify over
operation sequences; `get` is stateless so only the mutators appear). -/
inductive Op (K V : Type) where
  | ins (k : K) (v : V)
  | del (k : K)

/-- Run one operation against the table.  A `remove` that would panic
(no buckets at all) leaves no successor state; we keep the table
unchanged in that case, and the theorems below only traverse states
where the case cannot arise. -/
def applyOp (hash : K → Nat) (m : HashMap K V) : Op K V → HashMap K V
  | .ins k v => (insert hash m k v).2
  | .del k =>
      match remove hash m k with
      | some (_, m2) => m2
      | none => m

/-- The operation neither inserts nor removes key `k`. -/
def avoidsKey (k : K) : Op K V → Bool
  | .ins k2 _ => k2 != k
  | .del k2 => k2 != k

/-- Repeat the pair `insert(k, v); remove(k)` `n` times starting from a
new table. -/
def insRemIter (hash : K → Nat) (k : K) (v : V) : Nat → HashMap K V
  | 0 => new
  | n + 1 => applyOp hash (applyOp hash (insRemIter hash k v n) (.ins k v)) (.del k)

/-- Modelled from the spec wording of claim C5: growth is claimed to
happen "exactly when `count` would exceed 75% of the current capacity
after the insertion, or on the first insert ever (capacity 0 → 1)";
`capBefore` is the capacity before the insert, `itemsAfter` the count
after it.  (Stated over exact rationals: `itemsAfter > 3/4·capBefore`
iff `4·itemsAfter > 3·capBefore`.) -/
def specGrowCondition (capBefore itemsAfter : Nat) : Prop :=
  capBefore = 0 ∨ 4 * itemsAfter > 3 * capBefore

/-- The concrete table reached by `insert(1,42); insert(1,10);
insert(2,20); insert(3,30)` from a new table with the identity hash:
capacity 4, count 3 (the scenario of the source's own test). -/
def c5state : HashMap Nat Nat :=
  (insert id (insert id (insert id (insert id new 1 42).2 1 10).2 2 20).2 3 30).2

/-! ### Lemmas about the bucket-level helpers -/

theorem bucketAt_eq {bs : List (List α)} {i : Nat} (h : i < bs.length) :
    bucketAt bs i = bs[i] := List.getD_eq_getElem _ _ h

theorem findEntry_eq_none {b : List (K × V)} {k : K} :
    findEntry b k = none ↔ ∀ kv ∈ b, kv.1 ≠ k := by
  induction b with
  | nil => simp [findEntry]
  | cons x rest ih =>
    obtain ⟨k2, v2⟩ := x
    by_cases h : k2 = k <;> simp [findEntry, h, ih]

theorem findEntry_mem {b : List (K × V)} {k : K} {v : V}
    (h : findEntry b k = some v) : (k, v) ∈ b := by
  induction b with
  | nil => simp [findEntry] at h
  | cons x rest ih =>
    obtain ⟨k2, v2⟩ := x
    by_cases hk : k2 = k
    · simp [findEntry, hk] at h
      simp [hk, h]
    · simp [findEntry, hk] at h
      exact List.mem_cons_of_mem _ (ih h)

theorem findEntry_eq_some_of_mem {b : List (K × V)} {k : K} {v : V}
    (hmem : (k, v) ∈ b) (hnd : (b.map Prod.fst).Nodup) :
    findEntry b k = some v := by
  induction b with
  | nil => simp at hmem
  | cons x rest ih =>
    obtain ⟨k2, v2⟩ := x
    simp only [List.map_cons, List.nodup_cons] at hnd
    rcases List.mem_cons.1 hmem with heq | hmem2
    · obtain ⟨h1, h2⟩ := Prod.mk.injEq .. ▸ heq
      simp [findEntry, h1.symm, h2]
    · have hne : k2 ≠ k := by
        intro h
        exact hnd.1 (h ▸ List.mem_map_of_mem Prod.fst hmem2)
      simp [findEntry, hne, ih hmem2 hnd.2]

theorem replaceFirst_map_fst (b : List (K × V)) (k : K) (v : V) :
    (replaceFirst b k v).map Prod.fst = b.map Prod.fst := by
  induction b with
  | nil => rfl
  | cons x rest ih =>
    obtain ⟨k2, v2⟩ := x
    by_cases h : k2 = k <;> simp [replaceFirst, h, ih]

theorem length_replaceFirst (b : List (K × V)) (k : K) (v : V) :
    (replaceFirst b k v).length = b.length := by
  have := congrArg List.length (replaceFirst_map_fst b k v)
  simpa using this

theorem mem_replaceFirst_of_ne {b : List (K × V)} {k : K} {v : V}
    {x : K × V} (hx : x ∈ b) (hne : x.1 ≠ k) : x ∈ replaceFirst b k v := by
  induction b with
  | nil => simp at hx
  | cons y rest ih =>
    obtain ⟨k2, v2⟩ := y
    rcases List.mem_cons.1 hx with heq | hmem
    · have hk2 : k2 ≠ k := by
        subst heq; exact hne
      simp [replaceFirst, hk2, heq]
    · by_cases h : k2 = k
      · simp [replaceFirst, h, List.mem_cons_of_mem _ hmem]
      · simp [replaceFirst, h]
        right; exact ih hmem

theorem fst_mem_of_mem_replaceFirst {b : List (K × V)} {k : K} {v : V}
    {x : K × V} (hx : x ∈ replaceFirst b k v) : x.1 ∈ b.map Prod.fst :=
  replaceFirst_map_fst b k v ▸ List.mem_map_of_mem Prod.fst hx

theorem mem_replaceFirst_self {b : List (K × V)} {k : K} {v : V} {v0 : V}
    (h : findEntry b k = some v0) : (k, v) ∈ replaceFirst b k v := by
  induction b with
  | nil => simp [findEntry] at h
  | cons x rest ih =>
    obtain ⟨k2, v2⟩ := x
    by_cases hk : k2 = k
    · simp [replaceFirst, hk]
    · simp [findEntry, hk] at h
      simp [replaceFirst, hk]
      right; exact ih h

theorem position_eq_none {p : α → Bool} {b : List α} :
    position p b = none ↔ ∀ x ∈ b, ¬ p x := by
  induction b with
  | nil => simp [position]
  | cons x rest ih =>
    by_cases h : p x <;> simp [position, h, ih]

theorem position_eq_some {p : α → Bool} {b : List α} {i : Nat}
    (h : position p b = some i) : ∃ hi : i < b.length, p (b.get ⟨i, hi⟩) := by
  induction b generalizing i with
  | nil => simp [position] at h
  | cons x rest ih =>
    by_cases hp : p x
    · simp [position, hp] at h
      subst h
      exact ⟨by simp, by simpa using hp⟩
    · simp [position, hp] at h
      obtain ⟨j, hj, rfl⟩ := h
      obtain ⟨hlt, hpj⟩ := ih hj
      exact ⟨by simpa using Nat.succ_lt_succ hlt, by simpa using hpj⟩

/-! ### `swapRemove` -/

theorem swapRemove_perm : ∀ (l : List α) (i : Nat), i < l.length →
    (swapRemove l i).Perm (l.take i ++ l.drop (i + 1)) := by
  intro l
  induction l with
  | nil => intro i h; simp at h
  | cons a t ih =>
    intro i h
    cases t with
    | nil =>
      have hi : i = 0 := by simpa using Nat.lt_one_iff.1 h
      subst hi
      simp [swapRemove]
    | cons b t2 =>
      cases i with
      | zero =>
        have hne : b :: t2 ≠ [] := by simp
        have hlast : (a :: b :: t2).getLast? = some ((b :: t2).getLast hne) := by
          rw [List.getLast?_cons_cons]
          exact List.getLast?_eq_getLast _ hne
        have hdrop : (b :: t2).dropLast ++ [(b :: t2).getLast hne] = b :: t2 :=
          List.dropLast_append_getLast hne
        simp only [swapRemove, hlast, List.set_cons_zero, List.dropLast_cons₂,
          List.take_zero, List.drop_succ_cons, List.drop_zero, List.nil_append]
        have hperm := (List.perm_append_singleton ((b :: t2).getLast hne)
          ((b :: t2).dropLast)).symm
        conv_rhs => rw [← hdrop]
        exact hperm
      | succ j =>
        have hj : j < (b :: t2).length := by simpa using Nat.lt_of_succ_lt_succ h
        have hne : b :: t2 ≠ [] := by simp
        have hlast : (a :: b :: t2).getLast? = (b :: t2).getLast? := by
          rw [List.getLast?_cons_cons]
        have hset : ∃ c cs, (b :: t2).set j ((b :: t2).getLast hne) = c :: cs := by
          cases j with
          | zero => exact ⟨_, _, rfl⟩
          | succ j2 => exact ⟨_, _, rfl⟩
        obtain ⟨c, cs, hcs⟩ := hset
        have hlast2 : (b :: t2).getLast? = some ((b :: t2).getLast hne) :=
          List.getLast?_eq_getLast _ hne
        have hrec := ih j hj
        simp only [swapRemove, hlast2] at hrec
        simp only [swapRemove, hlast, hlast2, List.set_cons_succ, hcs,
          List.dropLast_cons₂, List.take_succ_cons, List.drop_succ_cons,
          List.cons_append]
        rw [← hcs]
        exact List.Perm.cons a hrec

theorem length_swapRemove {l : List α} {i : Nat} (h : i < l.length) :
    (swapRemove l i).length = l.length - 1 := by
  have := (swapRemove_perm l i h).length_eq
  simp only [List.length_append, List.length_take, List.length_drop] at this
  omega

theorem mem_of_mem_swapRemove {l : List α} {i : Nat} (h : i < l.length)
    {x : α} (hx : x ∈ swapRemove l i) : x ∈ l := by
  have := (swapRemove_perm l i h).mem_iff.1 hx
  rcases List.mem_append.1 this with h1 | h2
  · exact List.mem_of_mem_take h1
  · exact List.mem_of_mem_drop h2

theorem mem_swapRemove_of_ne {l : List α} {i : Nat} (h : i < l.length)
    {x : α} (hx : x ∈ l) (hne : x ≠ l[i]) : x ∈ swapRemove l i := by
  rw [(swapRemove_perm l i h).mem_iff, List.mem_append]
  have hdecomp : l.take i ++ l[i] :: l.drop (i + 1) = l := by
    rw [← List.drop_eq_getElem_cons h, List.take_append_drop]
  rw [← hdecomp] at hx
  rcases List.mem_append.1 hx with h1 | h2
  · exact Or.inl h1
  · rcases List.mem_cons.1 h2 with heq | hmem
    · exact absurd heq hne
    · exact Or.inr hmem

/-! ### Flattening a bucket array with one bucket replaced -/

theorem flatten_set (bs : List (List α)) (i : Nat) (h : i < bs.length)
    (b : List α) : (bs.set i b).flatten =
      (bs.take i).flatten ++ b ++ (bs.drop (i + 1)).flatten := by
  rw [List.set_eq_take_cons_drop _ h, List.flatten_append, List.flatten_cons,
    List.append_assoc]

theorem flatten_decomp (bs : List (List α)) (i : Nat) (h : i < bs.length) :
    bs.flatten = (bs.take i).flatten ++ bs[i] ++ (bs.drop (i + 1)).flatten := by
  conv_lhs => rw [← List.take_append_drop i bs]
  rw [List.drop_eq_getElem_cons h, List.flatten_append, List.flatten_cons,
    List.append_assoc]

theorem mem_flatten_of_mem_bucket {bs : List (List α)} {i : Nat}
    (h : i < bs.length) {x : α} (hx : x ∈ bs[i]) : x ∈ bs.flatten := by
  rw [flatten_decomp bs i h]
  simp [hx]

theorem length_pushAt (bs : List (List α)) (i : Nat) (x : α) :
    (pushAt bs i x).length = bs.length := by
  simp [pushAt]

theorem flatten_pushAt {bs : List (List α)} {i : Nat} (h : i < bs.length)
    (x : α) : (pushAt bs i x).flatten.Perm (x :: bs.flatten) := by
  have h1 : (pushAt bs i x).flatten =
      ((bs.take i).flatten ++ bs[i]) ++ x :: (bs.drop (i + 1)).flatten := by
    show (bs.set i (bs.getD i [] ++ [x])).flatten = _
    rw [List.getD_eq_getElem _ _ h, flatten_set bs i h]
    simp [List.append_assoc]
  have h2 : bs.flatten =
      ((bs.take i).flatten ++ bs[i]) ++ (bs.drop (i + 1)).flatten := by
    rw [flatten_decomp bs i h, List.append_assoc]
  rw [h1, h2]
  exact List.perm_middle

theorem getElem_pushAt (bs : List (List α)) (i : Nat) (x : α) (j : Nat)
    (hj : j < bs.length) (hj2 : j < (pushAt bs i x).length) :
    (pushAt bs i x)[j] = if i = j then bs[j] ++ [x] else bs[j] := by
  by_cases hij : i = j
  · subst hij
    simp only [pushAt] at hj2 ⊢
    rw [List.getElem_set_self, List.getD_eq_getElem _ _ hj]
    simp
  · simp only [pushAt] at hj2 ⊢
    simp [List.getElem_set_ne hij, hij]

/-! ### `rehash` -/

theorem newSize_pos (n : Nat) : 0 < newSize n := by
  cases n with
  | zero => simp [newSize]
  | succ n => simp [newSize]

theorem newSize_eq_of_ne_zero {n : Nat} (h : n ≠ 0) : newSize n = n * 2 := by
  cases n with
  | zero => exact absurd rfl h
  | succ n => rfl

theorem newSize_ne (n : Nat) : newSize n ≠ n := by
  cases n with
  | zero => simp [newSize]
  | succ n => simp [newSize]

theorem newSize_ge (n : Nat) : n ≤ newSize n := by
  cases n with
  | zero => simp [newSize]
  | succ n => simp [newSize]

theorem flatten_replicate_nil (n : Nat) :
    (List.replicate n ([] : List α)).flatten = [] := by
  induction n with
  | zero => rfl
  | succ n ih => simpa using ih

/-- The redistribution loop of `rehash`, specified in one shot: starting
from any bucket array `bs` of width `size`, pushing every entry of `es`
into its `hash % size` bucket keeps the width, permutes the flattened
contents to `es ++ bs.flatten`, and every entry of the result either was
already in the same bucket of `bs` or sits in its prescribed bucket. -/
theorem foldl_pushAt_spec (hash : K → Nat) (size : Nat) (hsize : 0 < size) :
    ∀ (es : List (K × V)) (bs : List (List (K × V))), bs.length = size →
    (es.foldl (fun bs2 kv => pushAt bs2 (hash kv.1 % size) kv) bs).length = size ∧
    (es.foldl (fun bs2 kv => pushAt bs2 (hash kv.1 % size) kv) bs).flatten.Perm
      (es ++ bs.flatten) ∧
    (∀ j, j < size → ∀ x ∈
      (es.foldl (fun bs2 kv => pushAt bs2 (hash kv.1 % size) kv) bs).getD j [],
      x ∈ bs.getD j [] ∨ hash x.1 % size = j) := by
  intro es
  induction es with
  | nil =>
    intro bs hlen
    refine ⟨hlen, by simp, ?_⟩
    intro j hj x hx
    exact Or.inl hx
  | cons e rest ih =>
    intro bs hlen
    have hidx : hash e.1 % size < bs.length := by
      rw [hlen]; exact Nat.mod_lt _ hsize
    have hlen2 : (pushAt bs (hash e.1 % size) e).length = size := by
      rw [length_pushAt, hlen]
    obtain ⟨ha, hb, hc⟩ := ih (pushAt bs (hash e.1 % size) e) hlen2
    refine ⟨ha, ?_, ?_⟩
    · refine hb.trans ?_
      have hstep := flatten_pushAt hidx e
      refine (List.Perm.append_left rest hstep).trans ?_
      exact List.perm_middle
    · intro j hj x hx
      rcases hc j hj x hx with hmem | hplaced
      · rw [List.getD_eq_getElem _ _ (by omega : j < (pushAt bs (hash e.1 % size) e).length),
          getElem_pushAt bs (hash e.1 % size) e j (by omega) (by omega)] at hmem
        rw [List.getD_eq_getElem _ _ (by omega : j < bs.length)]
        by_cases hij : hash e.1 % size = j
        · rw [if_pos hij] at hmem
          rcases List.mem_append.1 hmem with h1 | h2
          · exact Or.inl h1
          · right
            rw [List.mem_singleton.1 h2, hij]
        · rw [if_neg hij] at hmem
          exact Or.inl hmem
      · exact Or.inr hplaced

theorem rehash_items (hash : K → Nat) (m : HashMap K V) :
    (rehash hash m).items = m.items := rfl

theorem rehash_buckets (hash : K → Nat) (m : HashMap K V) :
    (rehash hash m).buckets = m.buckets.flatten.foldl
      (fun bs2 kv => pushAt bs2 (hash kv.1 % newSize m.buckets.length) kv)
      (List.replicate (newSize m.buckets.length) []) := rfl

theorem rehash_length (hash : K → Nat) (m : HashMap K V) :
    (rehash hash m).buckets.length = newSize m.buckets.length := by
  rw [rehash_buckets]
  exact (foldl_pushAt_spec hash (newSize m.buckets.length)
    (newSize_pos _) m.buckets.flatten
    (List.replicate (newSize m.buckets.length) []) (by simp)).1

theorem rehash_flatten_perm (hash : K → Nat) (m : HashMap K V) :
    (rehash hash m).buckets.flatten.Perm m.buckets.flatten := by
  have := (foldl_pushAt_spec hash (newSize m.buckets.length)
    (newSize_pos _) m.buckets.flatten
    (List.replicate (newSize m.buckets.length) [])
    (by simp)).2.1
  simp only [flatten_replicate_nil, List.append_nil] at this
  rw [rehash_buckets]
  exact this

theorem rehash_placed (hash : K → Nat) (m : HashMap K V) :
    ∀ j (hj : j < (rehash hash m).buckets.length),
      ∀ x ∈ (rehash hash m).buckets[j],
        hash x.1 % newSize m.buckets.length = j := by
  intro j hj x hx
  have hlen := rehash_length hash m
  have hj2 : j < newSize m.buckets.length := by omega
  have hx2 : x ∈ (rehash hash m).buckets.getD j [] := by
    rw [List.getD_eq_getElem _ _ hj]
    exact hx
  rw [rehash_buckets] at hx2
  have hspec := (foldl_pushAt_spec hash (newSize m.buckets.length)
    (newSize_pos _) m.buckets.flatten
    (List.replicate (newSize m.buckets.length) [])
    (by simp)).2.2 j hj2 x hx2
  rcases hspec with hmem | hplaced
  · rw [List.getD_eq_getElem _ _ (by simpa using hj2)] at hmem
    simp at hmem
  · exact hplaced

theorem rehash_WF (hash : K → Nat) {m : HashMap K V} (hm : WF hash m) :
    WF hash (rehash hash m) := by
  refine ⟨?_, ?_, ?_⟩
  · rw [rehash_items, (rehash_flatten_perm hash m).length_eq, hm.count]
  · intro i h kv hkv
    rw [rehash_length]
    exact rehash_placed hash m i h kv hkv
  · exact ((rehash_flatten_perm hash m).map Prod.fst).nodup_iff.2 hm.nodupKeys

/-! ### `growIfNeeded` -/

theorem growIfNeeded_items (hash : K → Nat) (m : HashMap K V) :
    (growIfNeeded hash m).items = m.items := by
  unfold growIfNeeded
  split
  · exact rehash_items hash m
  · rfl

theorem growIfNeeded_flatten_perm (hash : K → Nat) (m : HashMap K V) :
    (growIfNeeded hash m).buckets.flatten.Perm m.buckets.flatten := by
  unfold growIfNeeded
  split
  · exact rehash_flatten_perm hash m
  · exact List.Perm.refl _

theorem growIfNeeded_WF (hash : K → Nat) {m : HashMap K V} (hm : WF hash m) :
    WF hash (growIfNeeded hash m) := by
  unfold growIfNeeded
  split
  · exact rehash_WF hash hm
  · exact hm

/-- The table that `insert` actually indexes into always has at least one
bucket, for every input state: if the growth check fires, `rehash`
allocates `newSize ≥ 1` buckets; if it does not fire, then
`items ≥ 1` and `items ≤ 3·len/4`, which forces `len ≥ 2`. -/
theorem growIfNeeded_length_pos (hash : K → Nat) (m : HashMap K V) :
    0 < (growIfNeeded hash m).buckets.length := by
  unfold growIfNeeded
  split
  · rw [rehash_length]
    exact newSize_pos _
  · rename_i hcond
    simp only [empty, Bool.or_eq_true, beq_iff_eq, decide_eq_true_eq,
      not_or, Nat.not_lt] at hcond
    obtain ⟨h1, h2⟩ := hcond
    omega

theorem growIfNeeded_length_ge (hash : K → Nat) (m : HashMap K V) :
    m.buckets.length ≤ (growIfNeeded hash m).buckets.length := by
  unfold growIfNeeded
  split
  · rw [rehash_length]
    exact newSize_ge _
  · exact Nat.le_refl _

/-- The growth check changes capacity exactly when it fires. -/
theorem growIfNeeded_length_ne (hash : K → Nat) (m : HashMap K V) :
    (growIfNeeded hash m).buckets.length ≠ m.buckets.length ↔
      (m.items = 0 ∨ m.items > 3 * m.buckets.length / 4) := by
  unfold growIfNeeded
  split
  · rename_i hcond
    simp only [empty, Bool.or_eq_true, beq_iff_eq, decide_eq_true_eq] at hcond
    rw [rehash_length]
    exact ⟨fun _ => hcond, fun _ => newSize_ne _⟩
  · rename_i hcond
    simp only [empty, Bool.or_eq_true, beq_iff_eq, decide_eq_true_eq,
      not_or] at hcond
    simp [hcond.1, hcond.2]

/-! ### Consequences of the invariant -/

theorem WF_new (hash : K → Nat) : WF hash (new : HashMap K V) := by
  refine ⟨rfl, ?_, by simp [new]⟩
  intro i h
  simp [new] at h

theorem bucket_sublist_flatten {bs : List (List α)} {i : Nat}
    (h : i < bs.length) : bs[i].Sublist bs.flatten := by
  rw [flatten_decomp bs i h]
  exact ((List.sublist_append_right (bs.take i).flatten bs[i]).trans
    (List.sublist_append_left _ _))

theorem bucket_keys_nodup {hash : K → Nat} {m : HashMap K V} (hm : WF hash m)
    {i : Nat} (h : i < m.buckets.length) :
    ((m.buckets[i]).map Prod.fst).Nodup :=
  hm.nodupKeys.sublist ((bucket_sublist_flatten h).map Prod.fst)

theorem key_in_own_bucket {hash : K → Nat} {m : HashMap K V} (hm : WF hash m)
    {k : K} {v : V} (hmem : (k, v) ∈ m.buckets.flatten) :
    ∃ h : hash k % m.buckets.length < m.buckets.length,
      (k, v) ∈ m.buckets[hash k % m.buckets.length] := by
  obtain ⟨b, hb, hkv⟩ := List.mem_flatten.1 hmem
  obtain ⟨j, hj, rfl⟩ := List.mem_iff_getElem.1 hb
  have hplaced := hm.placed j hj (k, v) hkv
  subst hplaced
  exact ⟨hj, hkv⟩

theorem flatten_nonempty_of_mem {bs : List (List α)} {x : α}
    (h : x ∈ bs.flatten) : 0 < bs.length := by
  cases bs with
  | nil => simp at h
  | cons b t => simp

/-! ### `insert` -/

theorem insert_fst (hash : K → Nat) (m : HashMap K V) (k : K) (v : V) :
    (insert hash m k v).1 = none := by
  cases hfe : findEntry (bucketAt (growIfNeeded hash m).buckets
      (hash k % (growIfNeeded hash m).buckets.length)) k <;>
    simp only [insert, hfe]

theorem insert_length (hash : K → Nat) (m : HashMap K V) (k : K) (v : V) :
    (insert hash m k v).2.buckets.length = (growIfNeeded hash m).buckets.length := by
  cases hfe : findEntry (bucketAt (growIfNeeded hash m).buckets
      (hash k % (growIfNeeded hash m).buckets.length)) k <;>
    simp [insert, hfe]

theorem insert_mem (hash : K → Nat) (m : HashMap K V) (k : K) (v : V) :
    (k, v) ∈ (insert hash m k v).2.buckets.flatten := by
  have hpos := growIfNeeded_length_pos hash m
  have hidx : hash k % (growIfNeeded hash m).buckets.length <
      (growIfNeeded hash m).buckets.length := Nat.mod_lt _ hpos
  cases hfe : findEntry (bucketAt (growIfNeeded hash m).buckets
      (hash k % (growIfNeeded hash m).buckets.length)) k with
  | some v0 =>
    simp only [insert, hfe]
    rw [flatten_set _ _ hidx]
    have := mem_replaceFirst_self (v := v) hfe
    simp [this]
  | none =>
    simp only [insert, hfe]
    rw [flatten_set _ _ hidx]
    simp

theorem insert_mem_of_ne (hash : K → Nat) (m : HashMap K V) (k : K) (v : V)
    {x : K × V} (hx : x ∈ m.buckets.flatten) (hne : x.1 ≠ k) :
    x ∈ (insert hash m k v).2.buckets.flatten := by
  have hpos := growIfNeeded_length_pos hash m
  have hidx : hash k % (growIfNeeded hash m).buckets.length <
      (growIfNeeded hash m).buckets.length := Nat.mod_lt _ hpos
  have hx1 : x ∈ (growIfNeeded hash m).buckets.flatten :=
    (growIfNeeded_flatten_perm hash m).mem_iff.2 hx
  rw [flatten_decomp _ _ hidx, ← bucketAt_eq hidx] at hx1
  cases hfe : findEntry (bucketAt (growIfNeeded hash m).buckets
      (hash k % (growIfNeeded hash m).buckets.length)) k with
  | some v0 =>
    simp only [insert, hfe]
    rw [flatten_set _ _ hidx]
    rcases List.mem_append.1 hx1 with h1 | h2
    · rcases List.mem_append.1 h1 with ha | hb
      · simp [ha]
      · have : x ∈ replaceFirst (bucketAt (growIfNeeded hash m).buckets
            (hash k % (growIfNeeded hash m).buckets.length)) k v :=
          mem_replaceFirst_of_ne hb hne
        simp [this]
    · simp [h2]
  | none =>
    simp only [insert, hfe]
    rw [flatten_set _ _ hidx]
    rcases List.mem_append.1 hx1 with h1 | h2
    · rcases List.mem_append.1 h1 with ha | hb
      · simp [ha]
      · simp [hb]
    · simp [h2]

theorem insert_WF (hash : K → Nat) {m : HashMap K V} (k : K) (v : V)
    (hm : WF hash m) : WF hash (insert hash m k v).2 := by
  have hm1 := growIfNeeded_WF hash hm
  have hpos := growIfNeeded_length_pos hash m
  have hidx : hash k % (growIfNeeded hash m).buckets.length <
      (growIfNeeded hash m).buckets.length := Nat.mod_lt _ hpos
  cases hfe : findEntry (bucketAt (growIfNeeded hash m).buckets
      (hash k % (growIfNeeded hash m).buckets.length)) k with
  | some v0 =>
    simp only [insert, hfe]
    set m1 := growIfNeeded hash m with hm1def
    set idx := hash k % m1.buckets.length with hidxdef
    have hbd : bucketAt m1.buckets idx = m1.buckets[idx] :=
      bucketAt_eq hidx
    refine ⟨?_, ?_, ?_⟩
    · show m1.items = (m1.buckets.set idx (replaceFirst (bucketAt m1.buckets idx) k v)).flatten.length
      rw [flatten_set _ _ hidx, hm1.count, flatten_decomp m1.buckets idx hidx]
      simp [length_replaceFirst, hbd]
    · intro i h kv hkv
      simp only [List.length_set] at h ⊢
      rw [List.getElem_set] at hkv
      by_cases hii : idx = i
      · rw [if_pos hii] at hkv
        have hfst := fst_mem_of_mem_replaceFirst hkv
        rw [hbd] at hfst
        obtain ⟨y, hy, hyk⟩ := List.mem_map.1 hfst
        have hp := hm1.placed idx hidx y hy
        rw [← hyk, hp, hii]
      · rw [if_neg hii] at hkv
        exact hm1.placed i h kv hkv
    · show ((m1.buckets.set idx (replaceFirst (bucketAt m1.buckets idx) k v)).flatten.map Prod.fst).Nodup
      rw [flatten_set _ _ hidx]
      have hkeys : (replaceFirst (bucketAt m1.buckets idx) k v).map Prod.fst =
          (m1.buckets[idx]).map Prod.fst := by
        rw [replaceFirst_map_fst, hbd]
      have hflat := flatten_decomp m1.buckets idx hidx
      have : ((m1.buckets.take idx).flatten ++ replaceFirst (bucketAt m1.buckets idx) k v ++
          (m1.buckets.drop (idx + 1)).flatten).map Prod.fst =
          (m1.buckets.flatten.map Prod.fst) := by
        rw [hflat]
        simp only [List.map_append, hkeys]
      rw [this]
      exact hm1.nodupKeys
  | none =>
    simp only [insert, hfe]
    set m1 := growIfNeeded hash m with hm1def
    set idx := hash k % m1.buckets.length with hidxdef
    have hbd : bucketAt m1.buckets idx = m1.buckets[idx] :=
      bucketAt_eq hidx
    have hknotin : k ∉ m1.buckets.flatten.map Prod.fst := by
      intro hk
      obtain ⟨y, hy, hyk⟩ := List.mem_map.1 hk
      obtain ⟨y1, y2⟩ := y
      simp only at hyk
      subst hyk
      obtain ⟨h2, hinbucket⟩ := key_in_own_bucket hm1 hy
      have hmem2 : (y1, y2) ∈ bucketAt m1.buckets idx := by
        rw [hbd]
        exact hinbucket
      exact (findEntry_eq_none.1 hfe _ hmem2) rfl
    refine ⟨?_, ?_, ?_⟩
    · show m1.items + 1 = (m1.buckets.set idx (bucketAt m1.buckets idx ++ [(k, v)])).flatten.length
      rw [flatten_set _ _ hidx, hm1.count, flatten_decomp m1.buckets idx hidx]
      simp [hbd]
      omega
    · intro i h kv hkv
      simp only [List.length_set] at h ⊢
      rw [List.getElem_set] at hkv
      by_cases hii : idx = i
      · rw [if_pos hii] at hkv
        rcases List.mem_append.1 hkv with h1 | h2
        · rw [hbd] at h1
          rw [← hii]
          exact hm1.placed idx hidx kv h1
        · rw [List.mem_singleton.1 h2, ← hii, hidxdef]
      · rw [if_neg hii] at hkv
        exact hm1.placed i h kv hkv
    · show ((m1.buckets.set idx (bucketAt m1.buckets idx ++ [(k, v)])).flatten.map Prod.fst).Nodup
      have hperm : (m1.buckets.set idx (bucketAt m1.buckets idx ++ [(k, v)])).flatten.Perm
          ((k, v) :: m1.buckets.flatten) := flatten_pushAt hidx (k, v)
      rw [(hperm.map Prod.fst).nodup_iff]
      simp only [List.map_cons, List.nodup_cons]
      exact ⟨hknotin, hm1.nodupKeys⟩

theorem insert_items_mem (hash : K → Nat) {m : HashMap K V} {k : K} (v : V)
    (hm : WF hash m) (h : ∃ v0, (k, v0) ∈ m.buckets.flatten) :
    (insert hash m k v).2.items = m.items := by
  obtain ⟨v0, hv0⟩ := h
  have hm1 := growIfNeeded_WF hash hm
  have hpos := growIfNeeded_length_pos hash m
  have hidx : hash k % (growIfNeeded hash m).buckets.length <
      (growIfNeeded hash m).buckets.length := Nat.mod_lt _ hpos
  have hv1 : (k, v0) ∈ (growIfNeeded hash m).buckets.flatten :=
    (growIfNeeded_flatten_perm hash m).mem_iff.2 hv0
  obtain ⟨h2, hinbucket⟩ := key_in_own_bucket hm1 hv1
  have hfe : ∃ v2, findEntry (bucketAt (growIfNeeded hash m).buckets
      (hash k % (growIfNeeded hash m).buckets.length)) k = some v2 := by
    rw [bucketAt_eq hidx]
    refine ⟨v0, findEntry_eq_some_of_mem hinbucket ?_⟩
    exact bucket_keys_nodup hm1 h2
  obtain ⟨v2, hv2⟩ := hfe
  simp only [insert, hv2]
  exact growIfNeeded_items hash m

theorem insert_items_not_mem (hash : K → Nat) {m : HashMap K V} {k : K} (v : V)
    (h : ∀ kv ∈ m.buckets.flatten, kv.1 ≠ k) :
    (insert hash m k v).2.items = m.items + 1 := by
  have hpos := growIfNeeded_length_pos hash m
  have hidx : hash k % (growIfNeeded hash m).buckets.length <
      (growIfNeeded hash m).buckets.length := Nat.mod_lt _ hpos
  have hfe : findEntry (bucketAt (growIfNeeded hash m).buckets
      (hash k % (growIfNeeded hash m).buckets.length)) k = none := by
    rw [findEntry_eq_none, bucketAt_eq hidx]
    intro kv hkv
    have : kv ∈ (growIfNeeded hash m).buckets.flatten :=
      mem_flatten_of_mem_bucket hidx hkv
    exact h kv ((growIfNeeded_flatten_perm hash m).mem_iff.1 this)
  simp only [insert, hfe]
  rw [growIfNeeded_items]

/-! ### `remove` -/

theorem remove_eq_none_iff (hash : K → Nat) (m : HashMap K V) (k : K) :
    remove hash m k = none ↔ m.buckets.length = 0 := by
  by_cases hlen : m.buckets.length = 0
  · simp [remove, getBucketIdx, hlen]
  · have hg : getBucketIdx hash m k = some (hash k % m.buckets.length) := by
      simp [getBucketIdx, hlen]
    simp only [remove, hg, hlen, iff_false]
    cases position (fun kv => kv.1 == k)
        (bucketAt m.buckets (hash k % m.buckets.length)) <;> simp

theorem remove_some_elim (hash : K → Nat) (m : HashMap K V) (k : K)
    {r : Option V} {m2 : HashMap K V}
    (h : remove hash m k = some (r, m2)) :
    r = none ∧ 0 < m.buckets.length ∧
    ((m2 = m) ∨
      ∃ i, position (fun kv => kv.1 == k)
          (bucketAt m.buckets (hash k % m.buckets.length)) = some i ∧
        m2 = ⟨m.buckets.set (hash k % m.buckets.length)
          (swapRemove (bucketAt m.buckets (hash k % m.buckets.length)) i),
          m.items - 1⟩) := by
  by_cases hlen : m.buckets.length = 0
  · rw [(remove_eq_none_iff hash m k).2 hlen] at h
    cases h
  · have hg : getBucketIdx hash m k = some (hash k % m.buckets.length) := by
      simp [getBucketIdx, hlen]
    simp only [remove, hg] at h
    cases hpo : position (fun kv => kv.1 == k)
        (bucketAt m.buckets (hash k % m.buckets.length)) with
    | none =>
      rw [hpo] at h
      simp only [Option.some.injEq, Prod.mk.injEq] at h
      exact ⟨h.1.symm, Nat.pos_of_ne_zero hlen, Or.inl h.2.symm⟩
    | some i =>
      rw [hpo] at h
      simp only [Option.some.injEq, Prod.mk.injEq] at h
      exact ⟨h.1.symm, Nat.pos_of_ne_zero hlen, Or.inr ⟨i, rfl, h.2.symm⟩⟩

theorem remove_length (hash : K → Nat) (m : HashMap K V) (k : K)
    {r : Option V} {m2 : HashMap K V}
    (h : remove hash m k = some (r, m2)) :
    m2.buckets.length = m.buckets.length := by
  obtain ⟨-, -, hcases⟩ := remove_some_elim hash m k h
  rcases hcases with rfl | ⟨i, hpo, rfl⟩
  · rfl
  · simp

theorem remove_not_found (hash : K → Nat) (m : HashMap K V) (k : K)
    (hlen : 0 < m.buckets.length)
    (habs : ∀ kv ∈ m.buckets.flatten, kv.1 ≠ k) :
    remove hash m k = some (none, m) := by
  have hg : getBucketIdx hash m k = some (hash k % m.buckets.length) := by
    simp [getBucketIdx, Nat.pos_iff_ne_zero.1 hlen]
  have hidx : hash k % m.buckets.length < m.buckets.length := Nat.mod_lt _ hlen
  have hpo : position (fun kv => kv.1 == k)
      (bucketAt m.buckets (hash k % m.buckets.length)) = none := by
    rw [position_eq_none]
    intro x hx
    rw [bucketAt_eq hidx] at hx
    have : x ∈ m.buckets.flatten := mem_flatten_of_mem_bucket hidx hx
    simpa using habs x this
  simp only [remove, hg, hpo]

theorem remove_WF (hash : K → Nat) {m : HashMap K V} {k : K}
    {r : Option V} {m2 : HashMap K V} (hm : WF hash m)
    (h : remove hash m k = some (r, m2)) : WF hash m2 := by
  obtain ⟨-, hlen, hcases⟩ := remove_some_elim hash m k h
  rcases hcases with rfl | ⟨i, hpo, rfl⟩
  · exact hm
  · have hidx : hash k % m.buckets.length < m.buckets.length := Nat.mod_lt _ hlen
    have hbd : bucketAt m.buckets (hash k % m.buckets.length) =
        m.buckets[hash k % m.buckets.length] := bucketAt_eq hidx
    obtain ⟨hi, hpi⟩ := position_eq_some hpo
    have hsr := swapRemove_perm (bucketAt m.buckets (hash k % m.buckets.length)) i hi
    have hbucket_decomp :
        (bucketAt m.buckets (hash k % m.buckets.length)).take i ++
          (bucketAt m.buckets (hash k % m.buckets.length)).get ⟨i, hi⟩ ::
          (bucketAt m.buckets (hash k % m.buckets.length)).drop (i + 1) =
        bucketAt m.buckets (hash k % m.buckets.length) := by
      rw [List.get_eq_getElem, ← List.drop_eq_getElem_cons hi, List.take_append_drop]
    have hsub : ((bucketAt m.buckets (hash k % m.buckets.length)).take i ++
        (bucketAt m.buckets (hash k % m.buckets.length)).drop (i + 1)).Sublist
        (bucketAt m.buckets (hash k % m.buckets.length)) := by
      conv_rhs => rw [← hbucket_decomp]
      exact (List.Sublist.refl _).append (List.sublist_cons_self _ _)
    refine ⟨?_, ?_, ?_⟩
    · show m.items - 1 = (m.buckets.set (hash k % m.buckets.length)
        (swapRemove (bucketAt m.buckets (hash k % m.buckets.length)) i)).flatten.length
      rw [flatten_set _ _ hidx]
      have hlen_sr : (swapRemove (bucketAt m.buckets (hash k % m.buckets.length)) i).length =
          (bucketAt m.buckets (hash k % m.buckets.length)).length - 1 :=
        length_swapRemove hi
      have hcount := hm.count
      rw [flatten_decomp m.buckets (hash k % m.buckets.length) hidx] at hcount
      simp only [List.length_append] at hcount ⊢
      rw [hlen_sr, hbd] at *
      omega
    · intro j h2 kv hkv
      simp only [List.length_set] at h2 ⊢
      rw [List.getElem_set] at hkv
      by_cases hij : hash k % m.buckets.length = j
      · rw [if_pos hij] at hkv
        have := mem_of_mem_swapRemove hi hkv
        rw [hbd] at this
        rw [← hij]
        exact hm.placed _ hidx kv this
      · rw [if_neg hij] at hkv
        exact hm.placed j h2 kv hkv
    · show ((m.buckets.set (hash k % m.buckets.length)
        (swapRemove (bucketAt m.buckets (hash k % m.buckets.length)) i)).flatten.map
          Prod.fst).Nodup
      rw [flatten_set _ _ hidx]
      have hperm : ((m.buckets.take (hash k % m.buckets.length)).flatten ++
          swapRemove (bucketAt m.buckets (hash k % m.buckets.length)) i ++
          (m.buckets.drop (hash k % m.buckets.length + 1)).flatten).Perm
          ((m.buckets.take (hash k % m.buckets.length)).flatten ++
          ((bucketAt m.buckets (hash k % m.buckets.length)).take i ++
            (bucketAt m.buckets (hash k % m.buckets.length)).drop (i + 1)) ++
          (m.buckets.drop (hash k % m.buckets.length + 1)).flatten) :=
        ((hsr.append_left _).append_right _)
      rw [(hperm.map Prod.fst).nodup_iff]
      have hsub2 : ((m.buckets.take (hash k % m.buckets.length)).flatten ++
          ((bucketAt m.buckets (hash k % m.buckets.length)).take i ++
            (bucketAt m.buckets (hash k % m.buckets.length)).drop (i + 1)) ++
          (m.buckets.drop (hash k % m.buckets.length + 1)).flatten).Sublist
          m.buckets.flatten := by
        rw [flatten_decomp m.buckets (hash k % m.buckets.length) hidx, ← hbd]
        exact ((List.Sublist.refl _).append hsub).append (List.Sublist.refl _)
      exact hm.nodupKeys.sublist (hsub2.map Prod.fst)

theorem remove_mem_of_ne (hash : K → Nat) (m : HashMap K V) (k2 : K)
    {r : Option V} {m2 : HashMap K V}
    (h : remove hash m k2 = some (r, m2)) {x : K × V}
    (hx : x ∈ m.buckets.flatten) (hne : x.1 ≠ k2) :
    x ∈ m2.buckets.flatten := by
  obtain ⟨-, hlen, hcases⟩ := remove_some_elim hash m k2 h
  rcases hcases with rfl | ⟨i, hpo, rfl⟩
  · exact hx
  · have hidx : hash k2 % m.buckets.length < m.buckets.length := Nat.mod_lt _ hlen
    have hbd : bucketAt m.buckets (hash k2 % m.buckets.length) =
        m.buckets[hash k2 % m.buckets.length] := bucketAt_eq hidx
    obtain ⟨hi, hpi⟩ := position_eq_some hpo
    have hki : ((bucketAt m.buckets (hash k2 % m.buckets.length))[i]).1 = k2 := by
      simpa [List.get_eq_getElem] using hpi
    rw [flatten_set _ _ hidx]
    rw [flatten_decomp m.buckets (hash k2 % m.buckets.length) hidx] at hx
    rcases List.mem_append.1 hx with h1 | h2
    · rcases List.mem_append.1 h1 with ha | hb
      · simp [ha]
      · have hxb : x ∈ bucketAt m.buckets (hash k2 % m.buckets.length) := by
          rw [hbd]; exact hb
        have hxne : x ≠ (bucketAt m.buckets (hash k2 % m.buckets.length))[i] := by
          intro hcontra
          apply hne
          rw [hcontra]
          exact hki
        have := mem_swapRemove_of_ne hi hxb hxne
        simp [this]
    · simp [h2]

/-! ### `get` -/

theorem get_mem (hash : K → Nat) {m : HashMap K V} (hm : WF hash m)
    {k : K} {v : V} (hmem : (k, v) ∈ m.buckets.flatten) :
    get hash m k = some (some v) := by
  have hitems : m.items ≠ 0 := by
    rw [hm.count]
    intro hzero
    rw [List.length_eq_zero] at hzero
    rw [hzero] at hmem
    simp at hmem
  have hlen : m.buckets.length ≠ 0 :=
    Nat.pos_iff_ne_zero.1 (flatten_nonempty_of_mem hmem)
  obtain ⟨hidx, hinbucket⟩ := key_in_own_bucket hm hmem
  have hg : getBucketIdx hash m k = some (hash k % m.buckets.length) := by
    simp [getBucketIdx, hlen]
  have hfe : findEntry (bucketAt m.buckets (hash k % m.buckets.length)) k = some v := by
    rw [bucketAt_eq hidx]
    exact findEntry_eq_some_of_mem hinbucket (bucket_keys_nodup hm hidx)
  simp [get, empty, hitems, hg, hfe]

theorem get_isSome (hash : K → Nat) {m : HashMap K V} (hm : WF hash m)
    (k : K) : (get hash m k).isSome := by
  by_cases hitems : m.items = 0
  · simp [get, empty, hitems]
  · have hflat : m.buckets.flatten ≠ [] := by
      intro hnil
      apply hitems
      rw [hm.count, hnil]
      rfl
    have hlen : m.buckets.length ≠ 0 := by
      intro hzero
      apply hflat
      rw [List.length_eq_zero] at hzero
      rw [hzero]
      rfl
    have hg : getBucketIdx hash m k = some (hash k % m.buckets.length) := by
      simp [getBucketIdx, hlen]
    simp [get, empty, hitems, hg]

/-! ### Reachability -/

theorem reachable_WF {hash : K → Nat} {m : HashMap K V}
    (h : Reachable hash m) : WF hash m := by
  induction h with
  | init => exact WF_new hash
  | ins m k v hr ih => exact insert_WF hash k v ih
  | del m k r m2 hr hrem ih => exact remove_WF hash ih hrem

/-! ### Preservation along an operation sequence -/

theorem applyOp_keeps (hash : K → Nat) (k : K) (v : V) (op : Op K V)
    (m : HashMap K V) (hm : WF hash m) (hmem : (k, v) ∈ m.buckets.flatten)
    (hav : avoidsKey k op = true) :
    WF hash (applyOp hash m op) ∧ (k, v) ∈ (applyOp hash m op).buckets.flatten := by
  cases op with
  | ins k2 v2 =>
    have hne : k2 ≠ k := by simpa [avoidsKey] using hav
    exact ⟨insert_WF hash k2 v2 hm,
      insert_mem_of_ne hash m k2 v2 hmem hne.symm⟩
  | del k2 =>
    have hne : k2 ≠ k := by simpa [avoidsKey] using hav
    cases hrem : remove hash m k2 with
    | none =>
      simp only [applyOp, hrem]
      exact ⟨hm, hmem⟩
    | some p =>
      obtain ⟨r, m2⟩ := p
      simp only [applyOp, hrem]
      exact ⟨remove_WF hash hm hrem,
        remove_mem_of_ne hash m k2 hrem hmem hne.symm⟩

theorem foldl_keeps (hash : K → Nat) (k : K) (v : V) :
    ∀ (ops : List (Op K V)) (m : HashMap K V), WF hash m →
      (k, v) ∈ m.buckets.flatten →
      (∀ op ∈ ops, avoidsKey k op = true) →
      WF hash (ops.foldl (applyOp hash) m) ∧
      (k, v) ∈ (ops.foldl (applyOp hash) m).buckets.flatten := by
  intro ops
  induction ops with
  | nil => intro m hm hmem _; exact ⟨hm, hmem⟩
  | cons op rest ih =>
    intro m hm hmem hops
    obtain ⟨hm2, hmem2⟩ := applyOp_keeps hash k v op m hm hmem
      (hops op (List.mem_cons_self op rest))
    exact ih (applyOp hash m op) hm2 hmem2
      (fun op2 h2 => hops op2 (List.mem_cons_of_mem op h2))

/-! ### The alternating insert/remove pattern -/

theorem rehash_buckets_allNil (hash : K → Nat) (m : HashMap K V)
    (hb : ∀ b ∈ m.buckets, b = []) :
    (rehash hash m).buckets = List.replicate (newSize m.buckets.length) [] := by
  have hflat : m.buckets.flatten = [] := by
    rw [List.flatten_eq_nil_iff]
    exact hb
  rw [rehash_buckets, hflat]
  rfl

theorem growIfNeeded_of_empty (hash : K → Nat) (m : HashMap K V)
    (hitems : m.items = 0) : growIfNeeded hash m = rehash hash m := by
  simp [growIfNeeded, empty, hitems]

theorem bucketAt_replicate_nil (n i : Nat) :
    bucketAt (List.replicate n ([] : List α)) i = [] := by
  by_cases h : i < n
  · exact (bucketAt_eq (by simpa using h)).trans (List.getElem_replicate ..)
  · show (List.replicate n ([] : List α)).getD i [] = []
    rw [List.getD_eq_default]
    simpa using Nat.le_of_not_lt h

theorem set_replicate_nil (n i : Nat) :
    (List.replicate n ([] : List α)).set i [] = List.replicate n [] := by
  induction n generalizing i with
  | zero => rfl
  | succ n ih =>
    cases i with
    | zero => simp [List.replicate_succ]
    | succ j => simp [List.replicate_succ, ih j]

theorem insert_on_empty (hash : K → Nat) (m : HashMap K V) (k : K) (v : V)
    (hitems : m.items = 0) (hb : ∀ b ∈ m.buckets, b = []) :
    (insert hash m k v).2 =
      ⟨(List.replicate (newSize m.buckets.length) []).set
        (hash k % newSize m.buckets.length) [(k, v)], 1⟩ := by
  have hgrow : growIfNeeded hash m =
      ⟨List.replicate (newSize m.buckets.length) [], 0⟩ := by
    rw [growIfNeeded_of_empty hash m hitems]
    rw [← rehash_buckets_allNil hash m hb, ← hitems, ← rehash_items hash m]
  have hfe : findEntry (bucketAt (growIfNeeded hash m).buckets
      (hash k % (growIfNeeded hash m).buckets.length)) k = none := by
    rw [hgrow]
    show findEntry (bucketAt (List.replicate (newSize m.buckets.length) [])
      (hash k % (List.replicate (newSize m.buckets.length)
        ([] : List (K × V))).length)) k = none
    rw [bucketAt_replicate_nil]
    rfl
  simp only [insert, hfe]
  rw [hgrow]
  show (⟨(List.replicate (newSize m.buckets.length) ([] : List (K × V))).set
      (hash k % (List.replicate (newSize m.buckets.length)
        ([] : List (K × V))).length)
      (bucketAt (List.replicate (newSize m.buckets.length) [])
        (hash k % (List.replicate (newSize m.buckets.length)
          ([] : List (K × V))).length) ++ [(k, v)]), 0 + 1⟩ : HashMap K V) = _
  rw [bucketAt_replicate_nil]
  simp

theorem remove_single (hash : K → Nat) (k : K) (v : V) (s : Nat) (hs : 0 < s) :
    remove hash (⟨(List.replicate s []).set (hash k % s) [(k, v)], 1⟩ :
      HashMap K V) k = some (none, ⟨List.replicate s [], 0⟩) := by
  have hlen : ((List.replicate s ([] : List (K × V))).set
      (hash k % s) [(k, v)]).length = s := by simp
  have hidx : hash k % s < s := Nat.mod_lt _ hs
  have hg : getBucketIdx hash (⟨(List.replicate s []).set (hash k % s) [(k, v)], 1⟩ :
      HashMap K V) k = some (hash k % s) := by
    simp [getBucketIdx, hlen, Nat.pos_iff_ne_zero.1 hs]
  have hbucket : bucketAt ((List.replicate s ([] : List (K × V))).set
      (hash k % s) [(k, v)]) (hash k % s) = [(k, v)] := by
    rw [bucketAt_eq (by rw [hlen]; exact hidx)]
    exact List.getElem_set_self _
  have hpo : position (fun kv => kv.1 == k)
      (bucketAt ((List.replicate s ([] : List (K × V))).set
        (hash k % s) [(k, v)]) (hash k % s)) = some 0 := by
    rw [hbucket]
    simp [position]
  simp only [remove, hg, hpo]
  have hsw : swapRemove (bucketAt ((List.replicate s ([] : List (K × V))).set
      (hash k % s) [(k, v)]) (hash k % s)) 0 = [] := by
    rw [hbucket]
    rfl
  rw [hsw, List.set_set, set_replicate_nil]

theorem insRem_step (hash : K → Nat) (k : K) (v : V) (m : HashMap K V)
    (hitems : m.items = 0) (hb : ∀ b ∈ m.buckets, b = []) :
    applyOp hash (applyOp hash m (.ins k v)) (.del k) =
      ⟨List.replicate (newSize m.buckets.length) [], 0⟩ := by
  have hins := insert_on_empty hash m k v hitems hb
  show applyOp hash (insert hash m k v).2 (.del k) = _
  rw [hins]
  have hrem := remove_single hash k v (newSize m.buckets.length) (newSize_pos _)
  show (match remove hash (⟨(List.replicate (newSize m.buckets.length) []).set
      (hash k % newSize m.buckets.length) [(k, v)], 1⟩ : HashMap K V) k with
    | some (_, m2) => m2 | none => _) = _
  rw [hrem]

theorem insRemIter_closed (hash : K → Nat) (k : K) (v : V) :
    ∀ n, 1 ≤ n →
      insRemIter hash k v n = ⟨List.replicate (2 ^ (n - 1)) [], 0⟩ := by
  intro n
  induction n with
  | zero => intro h; cases h
  | succ n ih =>
    intro _
    show applyOp hash (applyOp hash (insRemIter hash k v n) (.ins k v)) (.del k) = _
    cases Nat.eq_zero_or_pos n with
    | inl hn0 =>
      subst hn0
      show applyOp hash (applyOp hash new (.ins k v)) (.del k) = _
      rw [insRem_step hash k v new rfl (by simp [new])]
      rfl
    | inr hpos =>
      rw [ih hpos, insRem_step hash k v _ rfl (by simp)]
      have h2 : newSize (2 ^ (n - 1)) = 2 ^ n := by
        rw [newSize_eq_of_ne_zero (Nat.pos_iff_ne_zero.1 (Nat.two_pow_pos _)),
          ← pow_succ]
        congr 1
        omega
      simp only [List.length_replicate, h2, Nat.succ_sub_one]

theorem insRemIter_items_nil (hash : K → Nat) (k : K) (v : V) (n : Nat) :
    (insRemIter hash k v n).items = 0 ∧
      ∀ b ∈ (insRemIter hash k v n).buckets, b = [] := by
  cases Nat.eq_zero_or_pos n with
  | inl h0 =>
    subst h0
    exact ⟨rfl, by simp [insRemIter, new]⟩
  | inr hpos =>
    rw [insRemIter_closed hash k v n hpos]
    exact ⟨rfl, by simp⟩

/-! ### Claim theorems -/

/-- C1 (counterexample): the claim says `insert` on a present key returns
the replaced value.  Concretely: after `insert(1,42)` the entry `(1,42)`
is present, yet `insert(1,10)` returns `None` — not `Some 42` — because
the source discards the result of `mem::replace` and returns `None` on
every path. -/
theorem C1_counterexample :
    (1, 42) ∈ (insert id (new : HashMap Nat Nat) 1 42).2.buckets.flatten ∧
    (insert id (insert id (new : HashMap Nat Nat) 1 42).2 1 10).1 = none ∧
    (insert id (insert id (new : HashMap Nat Nat) 1 42).2 1 10).1 ≠ some 42 := by
  decide

/-- C1 (amended): for every reachable table and every key already present
in it, `insert(key, value)` replaces the stored value in place (a
subsequent `get` of the key returns the new value) and leaves `count`
unchanged, but returns `None` — the replaced value is discarded, not
returned to the caller. -/
theorem C1_insert_existing_key (hash : K → Nat) (m : HashMap K V) (k : K)
    (v v0 : V) (hm : Reachable hash m) (hmem : (k, v0) ∈ m.buckets.flatten) :
    (insert hash m k v).1 = none ∧
    (insert hash m k v).2.items = m.items ∧
    get hash (insert hash m k v).2 k = some (some v) := by
  have hwf := reachable_WF hm
  exact ⟨insert_fst hash m k v, insert_items_mem hash v hwf ⟨v0, hmem⟩,
    get_mem hash (insert_WF hash k v hwf) (insert_mem hash m k v)⟩

/-- C1 (witness): the amended claim applied to the table `{1 ↦ 42}` and a
second insert of key 1 with value 10. -/
theorem C1_witness :
    (insert id (insert id (new : HashMap Nat Nat) 1 42).2 1 10).1 = none ∧
    (insert id (insert id (new : HashMap Nat Nat) 1 42).2 1 10).2.items =
      (insert id (new : HashMap Nat Nat) 1 42).2.items ∧
    get id (insert id (insert id (new : HashMap Nat Nat) 1 42).2 1 10).2 1 =
      some (some 10) :=
  C1_insert_existing_key id (insert id (new : HashMap Nat Nat) 1 42).2 1 10 42
    (Reachable.ins new 1 42 Reachable.init) (by decide)

/-- C2 (code bug, evaluated at the failing input): after `insert(1,42)`
the entry `(1,42)` is present; `remove(1)` detaches it (the resulting
table is `⟨[[]], 0⟩`, so the bucket is emptied and `count` drops to 0)
but reports `None` instead of the removed value 42: `swap_remove`'s
result is discarded and the source returns `None`. -/
theorem C2_remove_discards_value :
    (1, 42) ∈ (insert id (new : HashMap Nat Nat) 1 42).2.buckets.flatten ∧
    remove id (insert id (new : HashMap Nat Nat) 1 42).2 1 =
      some (none, (⟨[[]], 0⟩ : HashMap Nat Nat)) := by
  decide

/-- C3 (code bug, evaluated at the failing input): `remove` on a freshly
constructed table (capacity 0) calls `get_bucket_idx`, which computes
`hash % 0` — a panic in Rust, modelled here by the `none` result.  The
claim (and §7 of the spec) requires `remove` to report absence without
panicking in this case. -/
theorem C3_remove_panics_on_empty :
    remove id (new : HashMap Nat Nat) 0 = none := by
  decide

/-- C4: after `insert(k, v)` on any reachable table, running any sequence
of insert/remove operations that never inserts or removes `k` itself
(`get` is read-only and cannot change the state), `get k` returns exactly
`v` — the outer `some` says the lookup does not panic, the inner
`some v` is the returned value. -/
theorem C4_get_after_insert (hash : K → Nat) (m : HashMap K V) (k : K)
    (v : V) (hm : Reachable hash m) (ops : List (Op K V))
    (hops : ∀ op ∈ ops, avoidsKey k op = true) :
    get hash (ops.foldl (applyOp hash) (insert hash m k v).2) k =
      some (some v) := by
  have hwf := reachable_WF hm
  obtain ⟨hwf2, hmem2⟩ := foldl_keeps hash k v ops (insert hash m k v).2
    (insert_WF hash k v hwf) (insert_mem hash m k v) hops
  exact get_mem hash hwf2 hmem2

/-- C4 (witness): insert key 1 value 42 into a new table, then insert and
remove key 2 (forcing a grow in between); `get 1` still returns 42. -/
theorem C4_witness :
    get id ([Op.ins 2 20, Op.del 2].foldl (applyOp id)
      (insert id (new : HashMap Nat Nat) 1 42).2) 1 = some (some 42) :=
  C4_get_after_insert id new 1 42 Reachable.init [Op.ins 2 20, Op.del 2]
    (by decide)

/-- C5 (counterexample): the claim times growth by the count *after* the
insertion.  At the concrete state `c5state` (capacity 4, count 3, the
source's own test scenario), inserting the fresh key 4 brings the count
to 4, which exceeds 75% of the capacity 4 — the spec-worded condition
`specGrowCondition` holds — yet no grow happens: capacity stays 4.  The
code tests `items > 3·len/4` *before* the insertion. -/
theorem C5_counterexample :
    c5state.buckets.length = 4 ∧
    (insert id c5state 4 40).2.items = 4 ∧
    specGrowCondition c5state.buckets.length (insert id c5state 4 40).2.items ∧
    (insert id c5state 4 40).2.buckets.length = c5state.buckets.length := by
  refine ⟨by decide, by decide, Or.inr (by decide), by decide⟩

/-- C5 (amended): a grow (capacity change) happens during `insert`
exactly when, evaluated before the insertion, the count is 0 (which
covers the first insert ever, capacity 0 → 1) or the count exceeds
`⌊3·capacity/4⌋`; `remove` never changes the capacity, and `get` takes
the table immutably, so no other operation changes capacity. -/
theorem C5_grow_condition (hash : K → Nat) (m : HashMap K V) (k : K) (v : V) :
    ((insert hash m k v).2.buckets.length ≠ m.buckets.length ↔
      (m.items = 0 ∨ m.items > 3 * m.buckets.length / 4)) ∧
    (∀ (r : Option V) (m2 : HashMap K V), remove hash m k = some (r, m2) →
      m2.buckets.length = m.buckets.length) := by
  constructor
  · rw [insert_length]
    exact growIfNeeded_length_ne hash m
  · intro r m2 h
    exact remove_length hash m k h

/-- C5 (witness): the first insert into a new table changes the capacity
(count 0 fires the check), and a concrete successful `remove` keeps the
capacity unchanged. -/
theorem C5_witness :
    (insert id (new : HashMap Nat Nat) 1 42).2.buckets.length ≠
      (new : HashMap Nat Nat).buckets.length ∧
    (⟨[[]], 0⟩ : HashMap Nat Nat).buckets.length =
      (⟨[[(1, 42)]], 1⟩ : HashMap Nat Nat).buckets.length := by
  constructor
  · exact (C5_grow_condition id new 1 42).1.mpr (Or.inl rfl)
  · exact (C5_grow_condition id (⟨[[(1, 42)]], 1⟩ : HashMap Nat Nat) 1 42).2
      none ⟨[[]], 0⟩ (by decide)

/-- C6: in every reachable table state, `count` equals the total number
of `(key, value)` entries across all buckets; reachability quantifies
over all operation sequences built from `insert`, `get` (read-only) and
`remove`, so every operation preserves the equality. -/
theorem C6_count_invariant (hash : K → Nat) (m : HashMap K V)
    (hm : Reachable hash m) :
    m.items = (m.buckets.map List.length).sum := by
  rw [(reachable_WF hm).count, List.length_flatten]

/-- C6 (witness): the invariant evaluated on the table `{1 ↦ 42}`. -/
theorem C6_witness :
    (insert id (new : HashMap Nat Nat) 1 42).2.items =
      ((insert id (new : HashMap Nat Nat) 1 42).2.buckets.map List.length).sum :=
  C6_count_invariant id (insert id (new : HashMap Nat Nat) 1 42).2
    (Reachable.ins new 1 42 Reachable.init)

/-- C7: in every reachable state the capacity is 0 or a power of two, and
it is non-decreasing: `insert` never shrinks it (growth only doubles or
allocates the first bucket) and `remove` leaves it exactly unchanged
(`get` takes the table immutably). -/
theorem C7_capacity_pow_two (hash : K → Nat) (m : HashMap K V)
    (hm : Reachable hash m) :
    (m.buckets.length = 0 ∨ ∃ j, m.buckets.length = 2 ^ j) ∧
    (∀ (k : K) (v : V), m.buckets.length ≤ (insert hash m k v).2.buckets.length) ∧
    (∀ (k : K) (r : Option V) (m2 : HashMap K V),
      remove hash m k = some (r, m2) → m2.buckets.length = m.buckets.length) := by
  refine ⟨?_, ?_, ?_⟩
  · induction hm with
    | init => exact Or.inl rfl
    | ins m2 k v hr ih =>
      rw [insert_length]
      unfold growIfNeeded
      split
      · rw [rehash_length]
        rcases ih with h0 | ⟨j, hj⟩
        · rw [h0]
          exact Or.inr ⟨0, rfl⟩
        · rw [hj, newSize_eq_of_ne_zero (Nat.two_pow_pos j).ne']
          exact Or.inr ⟨j + 1, (pow_succ 2 j).symm⟩
      · exact ih
    | del m2 k r m3 hr hrem ih =>
      rw [remove_length hash m2 k hrem]
      exact ih
  · intro k v
    rw [insert_length]
    exact growIfNeeded_length_ge hash m
  · intro k r m2 h
    exact remove_length hash m k h

/-- C7 (witness): the power-of-two shape on the table `{1 ↦ 42}` and
capacity preservation by a concrete successful `remove`. -/
theorem C7_witness :
    ((insert id (new : HashMap Nat Nat) 1 42).2.buckets.length = 0 ∨
      ∃ j, (insert id (new : HashMap Nat Nat) 1 42).2.buckets.length = 2 ^ j) ∧
    (⟨[[]], 0⟩ : HashMap Nat Nat).buckets.length =
      (insert id (new : HashMap Nat Nat) 1 42).2.buckets.length := by
  have h := C7_capacity_pow_two id (insert id (new : HashMap Nat Nat) 1 42).2
    (Reachable.ins new 1 42 Reachable.init)
  exact ⟨h.1, h.2.2 1 none ⟨[[]], 0⟩ (by decide)⟩

/-- C8: removing an absent key from a table with at least one bucket
returns `some (none, m)` — the `none` reports absence and the state is
returned syntactically unchanged (`m` itself), so `count`, capacity and
every stored entry are exactly as before the call. -/
theorem C8_remove_absent_noop (hash : K → Nat) (m : HashMap K V) (k : K)
    (hlen : 0 < m.buckets.length)
    (habs : ∀ kv ∈ m.buckets.flatten, kv.1 ≠ k) :
    remove hash m k = some (none, m) :=
  remove_not_found hash m k hlen habs

/-- C8 (witness): removing key 1 from the table `{0 ↦ 5}` (capacity 1)
reports absence and returns the very same table. -/
theorem C8_witness :
    remove id (insert id (new : HashMap Nat Nat) 0 5).2 1 =
      some (none, (insert id (new : HashMap Nat Nat) 0 5).2) :=
  C8_remove_absent_noop id (insert id (new : HashMap Nat Nat) 0 5).2 1
    (by decide) (by decide)

/-- C9: in every reachable state, capacity 0 forces count 0; consequently
`get` never reaches its bucket-index modulo with a zero divisor (its
result is always `some _`, i.e. never the panic value, even though it
guards with a `count == 0` test), and the table `insert` indexes into —
the one after the growth check — always has at least one bucket, so the
modulo divisor in `insert` is never zero either. -/
theorem C9_capacity_zero_safety (hash : K → Nat) (m : HashMap K V) (k : K)
    (hm : Reachable hash m) :
    (m.buckets.length = 0 → m.items = 0) ∧
    (get hash m k).isSome ∧
    0 < (growIfNeeded hash m).buckets.length := by
  have hwf := reachable_WF hm
  refine ⟨?_, get_isSome hash hwf k, growIfNeeded_length_pos hash m⟩
  intro hlen
  rw [hwf.count, List.length_eq_zero.1 hlen]
  rfl

/-- C9 (witness): the three conjuncts on the freshly constructed table. -/
theorem C9_witness :
    ((new : HashMap Nat Nat).buckets.length = 0 →
      (new : HashMap Nat Nat).items = 0) ∧
    (get id (new : HashMap Nat Nat) 7).isSome ∧
    0 < (growIfNeeded id (new : HashMap Nat Nat)).buckets.length :=
  C9_capacity_zero_safety id new 7 Reachable.init

/-- C10: every insert performed while the count is 0 grows the table even
when the capacity is already ≥ 1 (the last conjunct: capacity doubles);
hence repeating `insert(k,v); remove(k)` `n ≥ 1` times from a new table
leaves capacity `2^(n-1)` with count 0, while the count never exceeds 1
along the way (each insert step yields count ≤ 1). -/
theorem C10_alternating_growth (hash : K → Nat) (k : K) (v : V) (n : Nat)
    (hn : 1 ≤ n) :
    (insRemIter hash k v n).buckets.length = 2 ^ (n - 1) ∧
    (insRemIter hash k v n).items = 0 ∧
    (∀ i, (insert hash (insRemIter hash k v i) k v).2.items ≤ 1) ∧
    (∀ m : HashMap K V, m.items = 0 → 1 ≤ m.buckets.length →
      (insert hash m k v).2.buckets.length = 2 * m.buckets.length) := by
  refine ⟨?_, ?_, ?_, ?_⟩
  · rw [insRemIter_closed hash k v n hn]
    simp
  · rw [insRemIter_closed hash k v n hn]
  · intro i
    obtain ⟨hit, hnil⟩ := insRemIter_items_nil hash k v i
    rw [insert_on_empty hash _ k v hit hnil]
  · intro m hitems hcap
    rw [insert_length, growIfNeeded_of_empty hash m hitems, rehash_length,
      newSize_eq_of_ne_zero (Nat.pos_iff_ne_zero.1 hcap), Nat.mul_comm]

/-- C10 (witness): three rounds of `insert(5,7); remove(5)` leave
capacity `2^2 = 4` and count 0. -/
theorem C10_witness :
    (insRemIter id 5 7 3).buckets.length = 2 ^ (3 - 1) ∧
    (insRemIter id 5 7 3).items = 0 ∧
    (∀ i, (insert id (insRemIter id 5 7 i) 5 7).2.items ≤ 1) ∧
    (∀ m : HashMap Nat Nat, m.items = 0 → 1 ≤ m.buckets.length →
      (insert id m 5 7).2.buckets.length = 2 * m.buckets.length) :=
  C10_alternating_growth id 5 7 3 (by decide)

end HashMap
